import Mathlib

/-!
Verification of the cross-archive duplication-accounting engine in
`examples/count_space_savings.rs`.

The embedding mirrors `main`:
* per-archive indexing (name sanitization, duplicate rejection, size recording),
* the global `size_map` / `entry_map`,
* pairwise shared-path statistics,
* per-file total/duplicate byte accounting,
* the global savable-space computation and the derived percentages.

Hash-based containers are modelled by association lists; the floating-point
percentages are modelled by exact rational arithmetic (`ℚ`), which preserves
the zero-guard structure and the stated bounds.  Rust `u64` sizes are modelled
by `Nat`: the program only adds and compares sizes, and the analysed archives
are far below overflow range, so no wrap-around modelling is needed.
-/

/-- Path of a zip file on disk (`PathToZip` in the source). -/
abbrev PathToZip := String

/-- Sanitized path of an entry inside a zip (`PathInsideZip` in the source). -/
abbrev PathInsideZip := String

/-- One metadata record of an archive entry: its raw (unsanitized) name and
its stored compressed size (`entry.name`, `entry.compressed_size`). -/
structure RawEntry where
  name : String
  compressed_size : Nat
deriving DecidableEq

/-- A zip archive as the scan sees it: its path plus the entry metadata
records returned by `archive.entries()`. -/
structure ZipFile where
  path : PathToZip
  entries : List RawEntry
deriving DecidableEq

/-- The failure modes of the scan loop in `main`:
* `noZipsFound` — `eyre::bail!("No zip files found in ...")` (the spec's
  `NoArchivesFound`);
* `evilName raw` — `eyre!("Entry had evil name: {raw}")` (the spec's
  `InvalidEntryName`); note the source error carries only the raw name;
* `duplicateEntry name zip` — the `assert!` message
  `"Duplicate entry {name} in archive {zip}"` (the spec's
  `DuplicateEntryInArchive`), carrying both the name and the archive. -/
inductive ScanError where
  | noZipsFound : ScanError
  | evilName (raw : String) : ScanError
  | duplicateEntry (name : PathInsideZip) (zip : PathToZip) : ScanError
deriving DecidableEq

/-- The per-archive index: the `(name, compressed_size)` pairs recorded for
one archive, in entry order.  Its `map Prod.fst` is the archive's `names`
set and its pairs are the archive's contribution to `size_map`. -/
abbrev PerArchive := List (PathInsideZip × Nat)

/-- The whole scan result: each archive's path with its per-archive index,
in input order (the source's `map` plus the grouping of `size_map`). -/
abbrev PerZip := List (PathToZip × PerArchive)

/-- The global `size_map`: `(zip_path, entry_path) ↦ compressed_size`. -/
abbrev SizeMap := List ((PathToZip × PathInsideZip) × Nat)

/-- The body of the per-archive entry loop (source lines 51–66): sanitize the
raw name (`sanitized_name()`, an external function, passed in as `sanitize`),
fail with `evilName` when sanitization fails, fail with `duplicateEntry` when
the name was already inserted for this archive, otherwise record the
`(name, compressed_size)` pair and continue. -/
def indexEntries (sanitize : String → Option PathInsideZip) (zip : PathToZip) :
    List RawEntry → PerArchive → Except ScanError PerArchive
  | [], acc => .ok acc
  | e :: rest, acc =>
    match sanitize e.name with
    | none => .error (.evilName e.name)
    | some n =>
      if n ∈ acc.map Prod.fst then .error (.duplicateEntry n zip)
      else indexEntries sanitize zip rest (acc ++ [(n, e.compressed_size)])

/-- The scan loop over all zip files (source lines 46–68): index each archive
in order; the first failure aborts the whole run. -/
def buildPerZip (sanitize : String → Option PathInsideZip) :
    List ZipFile → Except ScanError PerZip
  | [] => .ok []
  | z :: rest =>
    match indexEntries sanitize z.path z.entries [] with
    | .error e => .error e
    | .ok es =>
      match buildPerZip sanitize rest with
      | .error e => .error e
      | .ok tail => .ok ((z.path, es) :: tail)

/-- The run up to the end of indexing (source lines 36–68): an empty zip list
fails with `noZipsFound` before any archive is opened. -/
def buildIndex (sanitize : String → Option PathInsideZip) (zips : List ZipFile) :
    Except ScanError PerZip :=
  if zips.isEmpty then .error .noZipsFound else buildPerZip sanitize zips

/-- The global `size_map` flattened from the per-archive indexes. -/
def sizeMapOf (pz : PerZip) : SizeMap :=
  pz.flatMap (fun p => p.2.map (fun q => ((p.1, q.1), q.2)))

/-- The source's `map[zip]`: the set of entry names of one archive
(empty for a path that was never scanned). -/
def nameSetOf (pz : PerZip) (zip : PathToZip) : List PathInsideZip :=
  ((pz.lookup zip).getD []).map Prod.fst

/-- `size_map.get(&(zip, name)).copied().unwrap_or(0)`: a missing size lookup
contributes 0 instead of failing (source lines 82–89 and 120–123). -/
def sizeOrZero (sm : SizeMap) (zip : PathToZip) (n : PathInsideZip) : Nat :=
  (sm.lookup (zip, n)).getD 0

/-- `set1.intersection(set2)` (source line 77), as the sublist of the first
name set whose members also lie in the second. -/
def sharedNames (s1 s2 : List PathInsideZip) : List PathInsideZip :=
  s1.filter (fun n => n ∈ s2)

/-- `common_paths.len()` for an archive pair. -/
def sharedCount (pz : PerZip) (p1 p2 : PathToZip) : Nat :=
  (sharedNames (nameSetOf pz p1) (nameSetOf pz p2)).length

/-- `pair_bytes` for an archive pair (source lines 80–91): over the shared
names, sum `min` of the two size lookups, each defaulting to 0. -/
def pairBytes (pz : PerZip) (p1 p2 : PathToZip) : Nat :=
  ((sharedNames (nameSetOf pz p1) (nameSetOf pz p2)).map
    (fun n => min (sizeOrZero (sizeMapOf pz) p1 n) (sizeOrZero (sizeMapOf pz) p2 n))).sum

/-- The index pairs `(i, j)` with `i < j` of the pair loop (source lines
71–72), realised directly on the zip-path list. -/
def allPairs : List PathToZip → List (PathToZip × PathToZip)
  | [] => []
  | z :: rest => rest.map (fun w => (z, w)) ++ allPairs rest

/-- The archive pairs the program reports: only those with
`common > 0` (source line 79). -/
def reportedPairs (pz : PerZip) : List (PathToZip × PathToZip) :=
  (allPairs (pz.map Prod.fst)).filter (fun p => 0 < sharedCount pz p.1 p.2)

/-- `entry_map[name]` (source lines 104–111): all `(zip_path, size)`
occurrences of one entry name, collected from the global `size_map`. -/
def occ (sm : SizeMap) (n : PathInsideZip) : List (PathToZip × Nat) :=
  (sm.filter (fun p => p.1.2 == n)).map (fun p => (p.1.1, p.2))

/-- The occurrence sizes of one entry name across all archives. -/
def occSizes (sm : SizeMap) (n : PathInsideZip) : List Nat :=
  (occ sm n).map Prod.snd

/-- The distinct entry names, i.e. the key set of `entry_map`. -/
def entryNames (sm : SizeMap) : List PathInsideZip :=
  (sm.map (fun p => p.1.2)).dedup

/-- `file_bytes[zip]` (source lines 116–131): the summed sizes of one
archive's entries. -/
def fileTotal (pz : PerZip) (zip : PathToZip) : Nat :=
  ((nameSetOf pz zip).map (fun n => sizeOrZero (sizeMapOf pz) zip n)).sum

/-- `file_dup_bytes[zip]` (source lines 116–132): the summed sizes of the
archive's entries whose name occurs in more than one place globally. -/
def fileDup (pz : PerZip) (zip : PathToZip) : Nat :=
  ((nameSetOf pz zip).map (fun n =>
    if 1 < (occ (sizeMapOf pz) n).length then sizeOrZero (sizeMapOf pz) zip n else 0)).sum

/-- The per-file percentage (source lines 139–143): `dup / total * 100`,
guarded to 0 when `total` is 0. -/
def filePercent (pz : PerZip) (zip : PathToZip) : ℚ :=
  if 0 < fileTotal pz zip then
    (fileDup pz zip : ℚ) / (fileTotal pz zip : ℚ) * 100
  else 0

/-- The per-name contribution to `total_savable` (source lines 156–164):
sort the occurrence sizes ascending and sum the slice `[..len - 1]`,
i.e. every size except the last (largest) of the sorted list; a name
with at most one occurrence contributes nothing. -/
def savableOf (sizes : List Nat) : Nat :=
  if 1 < sizes.length then
    ((sizes.insertionSort (· ≤ ·)).take (sizes.length - 1)).sum
  else 0

/-- `total_savable` (source lines 153–164), summed per entry name. -/
def totalSavable (sm : SizeMap) : Nat :=
  ((entryNames sm).map (fun n => savableOf (occSizes sm n))).sum

/-- `total_bytes` (source lines 154–168), summed per entry name. -/
def totalBytes (sm : SizeMap) : Nat :=
  ((entryNames sm).map (fun n => (occSizes sm n).sum)).sum

/-- `percent_reduction` (source lines 170–174): guarded to 0 when
`total_bytes` is 0. -/
def percentReduction (sm : SizeMap) : ℚ :=
  if 0 < totalBytes sm then
    (totalSavable sm : ℚ) / (totalBytes sm : ℚ) * 100
  else 0

/-- The spec's formula for the per-name savable contribution, written from
the spec's words for comparison with `savableOf`: «sort sizes ascending, sum
all but the smallest», i.e. drop the first element of the sorted list. -/
def specSavableOf (sizes : List Nat) : Nat :=
  if 1 < sizes.length then
    ((sizes.insertionSort (· ≤ ·)).drop 1).sum
  else 0

/-- A concrete sanitizer for witnesses: reject one designated evil raw name,
accept everything else unchanged. -/
def sanitizeEx : String → Option PathInsideZip :=
  fun s => if s = "../evil" then none else some s

/-- Archive `Z1 = {x: 10, y: 20}` of the spec's scenario. -/
def exZ1 : ZipFile := ⟨"Z1", [⟨"x", 10⟩, ⟨"y", 20⟩]⟩

/-- Archive `Z2 = {x: 10, y: 5}` of the spec's scenario. -/
def exZ2 : ZipFile := ⟨"Z2", [⟨"x", 10⟩, ⟨"y", 5⟩]⟩

/-- Archive `Z3 = {y: 20}` of the spec's scenario. -/
def exZ3 : ZipFile := ⟨"Z3", [⟨"y", 20⟩]⟩

/-- The spec's three-archive scenario. -/
def exScenario : List ZipFile := [exZ1, exZ2, exZ3]

/-- The scan result of the scenario. -/
def exPerZip : PerZip :=
  [("Z1", [("x", 10), ("y", 20)]),
   ("Z2", [("x", 10), ("y", 5)]),
   ("Z3", [("y", 20)])]

/-! ### General list lemmas -/

/-- Summing a pointwise sum of two functions splits. -/
theorem sum_map_add {α : Type} (l : List α) (f g : α → Nat) :
    (l.map (fun x => f x + g x)).sum = (l.map f).sum + (l.map g).sum := by
  induction l with
  | nil => simp
  | cons x t ih => simp only [List.map_cons, List.sum_cons, ih]; omega

/-- A prefix sums to at most the whole list. -/
theorem sum_take_le (l : List Nat) (k : Nat) : (l.take k).sum ≤ l.sum := by
  conv_rhs => rw [← List.take_append_drop k l, List.sum_append]
  exact Nat.le_add_right _ _

/-- Indicator sums over a list not containing the index vanish. -/
theorem sum_indicator_not_mem (ns : List String) (a : String) (v : Nat)
    (ha : a ∉ ns) : (ns.map (fun n => if a == n then v else 0)).sum = 0 := by
  induction ns with
  | nil => simp
  | cons b t ih =>
    have hab : ¬(a == b) = true := by
      simp only [beq_iff_eq]
      exact fun h => ha (h ▸ List.mem_cons_self a t)
    simp only [List.map_cons, List.sum_cons, if_neg hab,
      ih (fun h => ha (List.mem_cons_of_mem b h))]

/-- Indicator sums over a duplicate-free list containing the index pick out
the value once. -/
theorem sum_indicator_mem (ns : List String) (a : String) (v : Nat)
    (hnd : ns.Nodup) (ha : a ∈ ns) :
    (ns.map (fun n => if a == n then v else 0)).sum = v := by
  induction ns with
  | nil => simp at ha
  | cons b t ih =>
    rcases List.nodup_cons.mp hnd with ⟨hb, ht⟩
    rcases List.mem_cons.mp ha with h | h
    · subst h
      simp only [List.map_cons, List.sum_cons, if_pos (beq_self_eq_true a),
        sum_indicator_not_mem t a v hb]
      omega
    · have hab : ¬(a == b) = true := by
        simp only [beq_iff_eq]
        exact fun he => hb (he ▸ h)
      simp only [List.map_cons, List.sum_cons, if_neg hab, ih ht h]
      omega

/-- Looking up a key of an association list with duplicate-free keys finds
the stored value. -/
theorem lookup_eq_some_of_mem {α β : Type} [BEq α] [LawfulBEq α]
    (l : List (α × β)) (k : α) (v : β)
    (hnd : (l.map Prod.fst).Nodup) (hm : (k, v) ∈ l) :
    l.lookup k = some v := by
  induction l with
  | nil => simp at hm
  | cons x t ih =>
    rw [List.map_cons] at hnd
    rcases List.nodup_cons.mp hnd with ⟨hx, ht⟩
    rcases List.mem_cons.mp hm with h | h
    · rw [← h]
      simp [List.lookup]
    · have hk : ¬(k == x.1) = true := by
        simp only [beq_iff_eq]
        intro he
        exact hx (he ▸ List.mem_map_of_mem Prod.fst h)
      simp only [List.lookup, hk]
      exact ih ht h

/-- Every member of a `Nat` list is at most its `foldr max 0`. -/
theorem le_foldr_max (l : List Nat) (a : Nat) (ha : a ∈ l) :
    a ≤ l.foldr max 0 := by
  induction l with
  | nil => simp at ha
  | cons b t ih =>
    rcases List.mem_cons.mp ha with h | h
    · subst h; exact le_max_left _ _
    · exact le_trans (ih h) (le_max_right _ _)

/-- The `foldr max 0` of an ascending non-empty list is its last element. -/
theorem sorted_foldr_max :
    ∀ (l : List Nat), l.Sorted (· ≤ ·) → (h : l ≠ []) →
      l.foldr max 0 = l.getLast h := by
  intro l
  induction l with
  | nil => intro _ h; exact absurd rfl h
  | cons a t ih =>
    intro hs _
    cases t with
    | nil => simp [Nat.max_zero]
    | cons b r =>
      rcases List.sorted_cons.mp hs with ⟨hab, ht⟩
      have hle : a ≤ (b :: r).foldr max 0 :=
        le_trans (hab b (List.mem_cons_self b r))
          (le_foldr_max (b :: r) b (List.mem_cons_self b r))
      rw [List.getLast_cons (List.cons_ne_nil b r)]
      simp only [List.foldr_cons] at *
      rw [max_eq_right hle, ih ht (List.cons_ne_nil b r)]

/-- `foldr max 0` is invariant under permutation. -/
theorem perm_foldr_max (l1 l2 : List Nat) (h : List.Perm l1 l2) :
    l1.foldr max 0 = l2.foldr max 0 := by
  haveI : LeftCommutative (max : Nat → Nat → Nat) :=
    ⟨fun a b c => max_left_comm a b c⟩
  exact h.foldr_eq 0

/-! ### Invariants of the indexing phase -/

/-- A successful per-archive index extends the accumulator and keeps its name
column duplicate-free. -/
theorem indexEntries_ok_nodup (sanitize : String → Option PathInsideZip)
    (zip : PathToZip) :
    ∀ (es : List RawEntry) (acc out : PerArchive),
      indexEntries sanitize zip es acc = .ok out →
      (acc.map Prod.fst).Nodup → (out.map Prod.fst).Nodup := by
  intro es
  induction es with
  | nil =>
    intro acc out h hacc
    simp only [indexEntries] at h
    cases h
    exact hacc
  | cons e rest ih =>
    intro acc out h hacc
    simp only [indexEntries] at h
    cases hs : sanitize e.name with
    | none => rw [hs] at h; cases h
    | some n =>
      simp only [hs] at h
      by_cases hmem : n ∈ acc.map Prod.fst
      · rw [if_pos hmem] at h; cases h
      · rw [if_neg hmem] at h
        refine ih (acc ++ [(n, e.compressed_size)]) out h ?_
        simp only [List.map_append, List.map_cons, List.map_nil]
        exact List.Nodup.append hacc (List.nodup_singleton n)
          (by simpa [List.disjoint_singleton] using hmem)

/-- A successful scan records exactly the input paths, in order. -/
theorem buildPerZip_paths (sanitize : String → Option PathInsideZip) :
    ∀ (zs : List ZipFile) (pz : PerZip),
      buildPerZip sanitize zs = .ok pz →
      pz.map Prod.fst = zs.map ZipFile.path := by
  intro zs
  induction zs with
  | nil =>
    intro pz h
    simp only [buildPerZip] at h
    cases h
    rfl
  | cons z rest ih =>
    intro pz h
    simp only [buildPerZip] at h
    cases h1 : indexEntries sanitize z.path z.entries [] with
    | error e => rw [h1] at h; cases h
    | ok es =>
      rw [h1] at h
      cases h2 : buildPerZip sanitize rest with
      | error e => rw [h2] at h; cases h
      | ok tail =>
        rw [h2] at h
        cases h
        simp only [List.map_cons, ih tail h2]

/-- Every archive block of a successful scan has duplicate-free names. -/
theorem buildPerZip_blocks_nodup (sanitize : String → Option PathInsideZip) :
    ∀ (zs : List ZipFile) (pz : PerZip),
      buildPerZip sanitize zs = .ok pz →
      ∀ b ∈ pz, (b.2.map Prod.fst).Nodup := by
  intro zs
  induction zs with
  | nil =>
    intro pz h b hb
    simp only [buildPerZip] at h
    cases h
    simp at hb
  | cons z rest ih =>
    intro pz h b hb
    simp only [buildPerZip] at h
    cases h1 : indexEntries sanitize z.path z.entries [] with
    | error e => rw [h1] at h; cases h
    | ok es =>
      rw [h1] at h
      cases h2 : buildPerZip sanitize rest with
      | error e => rw [h2] at h; cases h
      | ok tail =>
        rw [h2] at h
        cases h
        rcases List.mem_cons.mp hb with hb | hb
        · subst hb
          exact indexEntries_ok_nodup sanitize z.path z.entries [] es h1
            (by simp)
        · exact ih tail h2 b hb

/-- Every archive of a successful scan was indexed successfully. -/
theorem buildPerZip_ok_of_mem (sanitize : String → Option PathInsideZip) :
    ∀ (zs : List ZipFile) (pz : PerZip),
      buildPerZip sanitize zs = .ok pz →
      ∀ z ∈ zs, ∃ es, indexEntries sanitize z.path z.entries [] = .ok es := by
  intro zs
  induction zs with
  | nil =>
    intro pz _ z hz
    simp at hz
  | cons z0 rest ih =>
    intro pz h z hz
    simp only [buildPerZip] at h
    cases h1 : indexEntries sanitize z0.path z0.entries [] with
    | error e => rw [h1] at h; cases h
    | ok es =>
      rw [h1] at h
      cases h2 : buildPerZip sanitize rest with
      | error e => rw [h2] at h; cases h
      | ok tail =>
        rcases List.mem_cons.mp hz with hz | hz
        · exact ⟨es, hz ▸ h1⟩
        · exact ih tail h2 z hz

/-- A successful full run is a successful scan on a non-empty input. -/
theorem buildIndex_ok (sanitize : String → Option PathInsideZip)
    (zs : List ZipFile) (pz : PerZip) (h : buildIndex sanitize zs = .ok pz) :
    buildPerZip sanitize zs = .ok pz := by
  unfold buildIndex at h
  by_cases he : zs.isEmpty
  · rw [if_pos he] at h; cases h
  · rwa [if_neg he] at h

/-- Entries of a per-archive block appear in the flattened `size_map`. -/
theorem mem_sizeMapOf (pz : PerZip) (z : PathToZip) (es : PerArchive)
    (n : PathInsideZip) (s : Nat) (hb : (z, es) ∈ pz) (he : (n, s) ∈ es) :
    ((z, n), s) ∈ sizeMapOf pz := by
  simp only [sizeMapOf, List.mem_flatMap, List.mem_map]
  exact ⟨(z, es), hb, (n, s), he, rfl⟩

/-- The zip component of every `size_map` key is a scanned path. -/
theorem sizeMapOf_key_fst (pz : PerZip) (k : PathToZip × PathInsideZip)
    (hk : k ∈ (sizeMapOf pz).map Prod.fst) : k.1 ∈ pz.map Prod.fst := by
  rcases List.mem_map.mp hk with ⟨e, he, hek⟩
  simp only [sizeMapOf, List.mem_flatMap, List.mem_map] at he
  rcases he with ⟨p, hp, q, _, hpe⟩
  refine List.mem_map.mpr ⟨p, hp, ?_⟩
  rw [← hek, ← hpe]

/-- With duplicate-free zip paths and duplicate-free per-archive names, the
flattened `size_map` has duplicate-free keys. -/
theorem sizeMapOf_keys_nodup :
    ∀ (pz : PerZip), (pz.map Prod.fst).Nodup →
      (∀ b ∈ pz, (b.2.map Prod.fst).Nodup) →
      ((sizeMapOf pz).map Prod.fst).Nodup := by
  intro pz
  induction pz with
  | nil =>
    intro _ _
    simp [sizeMapOf]
  | cons b rest ih =>
    intro hpaths hblocks
    rw [List.map_cons] at hpaths
    rcases List.nodup_cons.mp hpaths with ⟨hb1, hrest⟩
    have hstep : sizeMapOf (b :: rest)
        = b.2.map (fun q => ((b.1, q.1), q.2)) ++ sizeMapOf rest := by
      simp [sizeMapOf]
    rw [hstep, List.map_append, List.nodup_append]
    refine ⟨?_, ih hrest (fun c hc => hblocks c (List.mem_cons_of_mem b hc)), ?_⟩
    · rw [List.map_map]
      have hrw : (Prod.fst ∘ fun q : PathInsideZip × Nat => ((b.1, q.1), q.2))
          = (fun n => (b.1, n)) ∘ Prod.fst := rfl
      rw [hrw, ← List.map_map]
      exact List.Nodup.map (fun a c h => congrArg Prod.snd h)
        (hblocks b (List.mem_cons_self b rest))
    · intro a ha ha'
      have h1 : a.1 = b.1 := by
        rw [List.map_map] at ha
        rcases List.mem_map.mp ha with ⟨q, _, hq⟩
        rw [← hq]
        rfl
      exact hb1 (h1 ▸ sizeMapOf_key_fst rest a ha')

/-- An association-list lookup hit is a membership. -/
theorem mem_of_lookup_eq_some {α β : Type} [BEq α] [LawfulBEq α] :
    ∀ (l : List (α × β)) (k : α) (v : β), l.lookup k = some v → (k, v) ∈ l := by
  intro l
  induction l with
  | nil => intro k v h; simp [List.lookup] at h
  | cons x t ih =>
    intro k v h
    by_cases hk : (k == x.1) = true
    · simp only [List.lookup, hk] at h
      cases h
      exact (eq_of_beq hk) ▸ List.mem_cons_self x t
    · simp only [List.lookup, Bool.of_not_eq_true hk] at h
      exact List.mem_cons_of_mem x (ih k v h)

/-- With duplicate-free zip paths, `map[zip]` is the archive's own name
column. -/
theorem nameSetOf_eq (pz : PerZip) (z : PathToZip) (es : PerArchive)
    (hnd : (pz.map Prod.fst).Nodup) (hb : (z, es) ∈ pz) :
    nameSetOf pz z = es.map Prod.fst := by
  unfold nameSetOf
  rw [lookup_eq_some_of_mem pz z es hnd hb]
  rfl

/-- Every name set arising from a successful scan is duplicate-free. -/
theorem nameSetOf_nodup (sanitize : String → Option PathInsideZip)
    (zs : List ZipFile) (pz : PerZip) (hok : buildPerZip sanitize zs = .ok pz)
    (p : PathToZip) : (nameSetOf pz p).Nodup := by
  unfold nameSetOf
  cases hl : pz.lookup p with
  | none => simp
  | some es =>
    simp only [Option.getD_some]
    exact buildPerZip_blocks_nodup sanitize zs pz hok (p, es)
      (mem_of_lookup_eq_some pz p es hl)

/-- A name absent from the `size_map` has no occurrence fiber. -/
theorem filter_name_not_mem (sm : SizeMap) (n : PathInsideZip)
    (hn : n ∉ sm.map (fun p => p.1.2)) :
    sm.filter (fun p => p.1.2 == n) = [] := by
  rw [List.filter_eq_nil_iff]
  intro a ha
  simp only [beq_iff_eq]
  exact fun he => hn (List.mem_map.mpr ⟨a, ha, he⟩)

/-- When the entry-name column of the `size_map` is duplicate-free, every
occurrence list has at most one element. -/
theorem occ_length_le_one :
    ∀ (sm : SizeMap), (sm.map (fun p => p.1.2)).Nodup →
      ∀ n, (occ sm n).length ≤ 1 := by
  intro sm
  induction sm with
  | nil => intro _ n; simp [occ]
  | cons x t ih =>
    intro hnd n
    rw [List.map_cons] at hnd
    rcases List.nodup_cons.mp hnd with ⟨hx, ht⟩
    unfold occ
    rw [List.filter_cons]
    by_cases hxe : (x.1.2 == n) = true
    · have hxn : x.1.2 = n := eq_of_beq hxe
      rw [if_pos hxe, filter_name_not_mem t n (hxn ▸ hx)]
      simp
    · rw [if_neg hxe]
      exact ih ht n

/-! ### Summation lemmas for the global statistics -/

/-- Grouping the `size_map` by entry name partitions it: the fiber sums add
up to the sum of all sizes. -/
theorem sum_fiber_sizes :
    ∀ (sm : SizeMap) (ns : List PathInsideZip), ns.Nodup →
      (∀ p ∈ sm, p.1.2 ∈ ns) →
      (ns.map (fun n =>
        ((sm.filter (fun p => p.1.2 == n)).map (fun p => p.2)).sum)).sum
        = (sm.map (fun p => p.2)).sum := by
  intro sm
  induction sm with
  | nil => intro ns _ _; simp
  | cons x t ih =>
    intro ns hnd hcov
    have hsplit : ∀ n : PathInsideZip,
        (((x :: t).filter (fun p => p.1.2 == n)).map (fun p => p.2)).sum
          = (if x.1.2 == n then x.2 else 0)
            + ((t.filter (fun p => p.1.2 == n)).map (fun p => p.2)).sum := by
      intro n
      rw [List.filter_cons]
      by_cases hx : (x.1.2 == n) = true
      · rw [if_pos hx, if_pos hx, List.map_cons, List.sum_cons]
      · rw [if_neg hx, if_neg hx, Nat.zero_add]
    simp only [hsplit]
    rw [sum_map_add ns (fun n => if x.1.2 == n then x.2 else 0) _,
      sum_indicator_mem ns x.1.2 x.2 hnd (hcov x (List.mem_cons_self x t)),
      ih ns hnd (fun p hp => hcov p (List.mem_cons_of_mem x hp))]
    simp

/-- `total_bytes` counts every `(archive, entry)` occurrence size once. -/
theorem totalBytes_eq (sm : SizeMap) :
    totalBytes sm = (sm.map (fun p => p.2)).sum := by
  unfold totalBytes
  have h1 : ∀ n, (occSizes sm n).sum
      = ((sm.filter (fun p => p.1.2 == n)).map (fun p => p.2)).sum := by
    intro n
    unfold occSizes occ
    rw [List.map_map]
    rfl
  simp only [h1]
  exact sum_fiber_sizes sm (entryNames sm) (List.nodup_dedup _)
    (fun p hp => List.mem_dedup.mpr (List.mem_map.mpr ⟨p, hp, rfl⟩))

/-- The per-name savable contribution never exceeds the name's total bytes. -/
theorem savableOf_le_sum (sizes : List Nat) : savableOf sizes ≤ sizes.sum := by
  unfold savableOf
  by_cases h : 1 < sizes.length
  · rw [if_pos h]
    calc ((sizes.insertionSort (· ≤ ·)).take (sizes.length - 1)).sum
        ≤ (sizes.insertionSort (· ≤ ·)).sum := sum_take_le _ _
      _ = sizes.sum := (List.perm_insertionSort (· ≤ ·) sizes).sum_eq
  · rw [if_neg h]
    exact Nat.zero_le _

/-- For a duplicated name the savable contribution is the total of the
occurrence sizes minus their maximum: the program keeps the largest copy. -/
theorem savableOf_add_max (sizes : List Nat) (h : 1 < sizes.length) :
    savableOf sizes + sizes.foldr max 0 = sizes.sum := by
  unfold savableOf
  rw [if_pos h]
  have hperm : List.Perm (sizes.insertionSort (· ≤ ·)) sizes :=
    List.perm_insertionSort (· ≤ ·) sizes
  have hlen : (sizes.insertionSort (· ≤ ·)).length = sizes.length :=
    hperm.length_eq
  have htne : sizes.insertionSort (· ≤ ·) ≠ [] := by
    intro he
    rw [he] at hlen
    simp only [List.length_nil] at hlen
    omega
  have hsorted : (sizes.insertionSort (· ≤ ·)).Sorted (· ≤ ·) :=
    List.sorted_insertionSort (· ≤ ·) sizes
  have hmax : sizes.foldr max 0 = (sizes.insertionSort (· ≤ ·)).getLast htne := by
    rw [← perm_foldr_max _ sizes hperm]
    exact sorted_foldr_max _ hsorted htne
  have htake : (sizes.insertionSort (· ≤ ·)).take (sizes.length - 1)
      = (sizes.insertionSort (· ≤ ·)).dropLast := by
    rw [List.dropLast_eq_take, hlen]
  rw [htake, hmax, ← hperm.sum_eq]
  conv_rhs => rw [← List.dropLast_append_getLast htne, List.sum_append]
  simp

/-! ### Characterizations of the per-archive indexing outcome -/

/-- If every raw name sanitizes but the sanitized names collide (with each
other or the accumulator), indexing stops with a duplicate-entry failure
naming this archive. -/
theorem indexEntries_dup (sanitize : String → Option PathInsideZip)
    (zip : PathToZip) :
    ∀ (es : List RawEntry) (acc : PerArchive),
      (∀ e ∈ es, (sanitize e.name).isSome) →
      (acc.map Prod.fst).Nodup →
      ¬ (acc.map Prod.fst ++ es.filterMap (fun e => sanitize e.name)).Nodup →
      ∃ n, indexEntries sanitize zip es acc
        = .error (.duplicateEntry n zip) := by
  intro es
  induction es with
  | nil =>
    intro acc _ hacc hdup
    exact absurd (by simpa using hacc) hdup
  | cons e rest ih =>
    intro acc hok hacc hdup
    rcases Option.isSome_iff_exists.mp (hok e (List.mem_cons_self e rest))
      with ⟨n, hn⟩
    have hfm : (e :: rest).filterMap (fun e' => sanitize e'.name)
        = n :: rest.filterMap (fun e' => sanitize e'.name) := by
      simp [List.filterMap_cons, hn]
    by_cases hmem : n ∈ acc.map Prod.fst
    · exact ⟨n, by simp [indexEntries, hn, hmem]⟩
    · have hstep : indexEntries sanitize zip (e :: rest) acc
          = indexEntries sanitize zip rest (acc ++ [(n, e.compressed_size)]) := by
        simp [indexEntries, hn, hmem]
      rw [hstep]
      refine ih (acc ++ [(n, e.compressed_size)])
        (fun e' he' => hok e' (List.mem_cons_of_mem e he')) ?_ ?_
      · simp only [List.map_append, List.map_cons, List.map_nil]
        exact List.Nodup.append hacc (List.nodup_singleton n)
          (by simpa [List.disjoint_singleton] using hmem)
      · intro hcontra
        apply hdup
        rw [hfm]
        simpa [List.append_assoc] using hcontra

/-- If every raw name sanitizes and the sanitized names are collision-free,
indexing succeeds. -/
theorem indexEntries_ok_exists (sanitize : String → Option PathInsideZip)
    (zip : PathToZip) :
    ∀ (es : List RawEntry) (acc : PerArchive),
      (∀ e ∈ es, (sanitize e.name).isSome) →
      (acc.map Prod.fst ++ es.filterMap (fun e => sanitize e.name)).Nodup →
      ∃ out, indexEntries sanitize zip es acc = .ok out := by
  intro es
  induction es with
  | nil => intro acc _ _; exact ⟨acc, rfl⟩
  | cons e rest ih =>
    intro acc hok hnd
    rcases Option.isSome_iff_exists.mp (hok e (List.mem_cons_self e rest))
      with ⟨n, hn⟩
    have hfm : (e :: rest).filterMap (fun e' => sanitize e'.name)
        = n :: rest.filterMap (fun e' => sanitize e'.name) := by
      simp [List.filterMap_cons, hn]
    rw [hfm] at hnd
    have hmem : n ∉ acc.map Prod.fst := by
      intro hmem
      rcases List.nodup_append.mp hnd with ⟨_, _, hdisj⟩
      exact hdisj hmem (List.mem_cons_self n _)
    have hstep : indexEntries sanitize zip (e :: rest) acc
        = indexEntries sanitize zip rest (acc ++ [(n, e.compressed_size)]) := by
      simp [indexEntries, hn, hmem]
    rw [hstep]
    refine ih (acc ++ [(n, e.compressed_size)])
      (fun e' he' => hok e' (List.mem_cons_of_mem e he')) ?_
    have hre : (acc ++ [(n, e.compressed_size)]).map Prod.fst
        ++ rest.filterMap (fun e' => sanitize e'.name)
        = acc.map Prod.fst ++ n :: rest.filterMap (fun e' => sanitize e'.name) := by
      simp
    rw [hre]
    exact hnd

/-- Indexing a concatenation is indexing the first part, then the second
from the reached accumulator. -/
theorem indexEntries_append (sanitize : String → Option PathInsideZip)
    (zip : PathToZip) :
    ∀ (l1 l2 : List RawEntry) (acc : PerArchive),
      indexEntries sanitize zip (l1 ++ l2) acc
        = match indexEntries sanitize zip l1 acc with
          | .error err => .error err
          | .ok out => indexEntries sanitize zip l2 out := by
  intro l1
  induction l1 with
  | nil => intro l2 acc; rfl
  | cons e rest ih =>
    intro l2 acc
    cases hs : sanitize e.name with
    | none => simp [indexEntries, hs]
    | some n =>
      by_cases hmem : n ∈ acc.map Prod.fst
      · simp [indexEntries, hs, hmem]
      · simp only [List.cons_append, indexEntries, hs]
        rw [if_neg hmem, if_neg hmem]
        exact ih l2 (acc ++ [(n, e.compressed_size)])

/-- An archive whose indexing fails prevents any successful scan of a list
containing it. -/
theorem buildPerZip_fails (sanitize : String → Option PathInsideZip)
    (z : ZipFile) (err : ScanError)
    (herr : indexEntries sanitize z.path z.entries [] = .error err) :
    ∀ (zs : List ZipFile) (pz : PerZip), z ∈ zs →
      buildPerZip sanitize zs ≠ .ok pz := by
  intro zs pz hz hok
  rcases buildPerZip_ok_of_mem sanitize zs pz hok z hz with ⟨es, hes⟩
  rw [herr] at hes
  cases hes

/-! ### Pairwise overlap support -/

/-- Membership in a shared-name list is membership in both sets. -/
theorem mem_sharedNames (s1 s2 : List PathInsideZip) (a : PathInsideZip) :
    a ∈ sharedNames s1 s2 ↔ a ∈ s1 ∧ a ∈ s2 := by
  simp [sharedNames]

/-- For duplicate-free name sets, the two orientations of the shared-name
list are permutations of each other. -/
theorem sharedNames_perm (s1 s2 : List PathInsideZip)
    (h1 : s1.Nodup) (h2 : s2.Nodup) :
    List.Perm (sharedNames s1 s2) (sharedNames s2 s1) := by
  have hn1 : (sharedNames s1 s2).Nodup := h1.filter _
  have hn2 : (sharedNames s2 s1).Nodup := h2.filter _
  refine (List.perm_ext_iff_of_nodup hn1 hn2).mpr ?_
  intro a
  rw [mem_sharedNames, mem_sharedNames]
  exact and_comm

/-! ### Per-archive totals against the flattened map -/

/-- Under a successful scan with distinct zip paths, an archive's
`file_bytes` total is the sum of its own recorded sizes. -/
theorem fileTotal_eq_block (sanitize : String → Option PathInsideZip)
    (zs : List ZipFile) (pz : PerZip) (hok : buildPerZip sanitize zs = .ok pz)
    (hnd : (pz.map Prod.fst).Nodup) (z : PathToZip) (es : PerArchive)
    (hb : (z, es) ∈ pz) :
    fileTotal pz z = (es.map (fun q => q.2)).sum := by
  have hkeys : ((sizeMapOf pz).map Prod.fst).Nodup :=
    sizeMapOf_keys_nodup pz hnd (buildPerZip_blocks_nodup sanitize zs pz hok)
  unfold fileTotal
  rw [nameSetOf_eq pz z es hnd hb, List.map_map]
  refine congrArg List.sum (List.map_congr_left ?_)
  intro q hq
  show sizeOrZero (sizeMapOf pz) z q.1 = q.2
  unfold sizeOrZero
  rw [lookup_eq_some_of_mem _ _ _ hkeys
    (mem_sizeMapOf pz z es q.1 q.2 hb (by simpa using hq))]
  rfl

/-- Summing per-archive size columns equals summing the flattened map. -/
theorem sum_blocks_eq :
    ∀ (pz : PerZip),
      (pz.map (fun b => (b.2.map (fun q => q.2)).sum)).sum
        = ((sizeMapOf pz).map (fun p => p.2)).sum := by
  intro pz
  induction pz with
  | nil => simp [sizeMapOf]
  | cons b rest ih =>
    have hstep : sizeMapOf (b :: rest)
        = b.2.map (fun q => ((b.1, q.1), q.2)) ++ sizeMapOf rest := by
      simp [sizeMapOf]
    rw [List.map_cons, List.sum_cons, hstep, List.map_append, List.sum_append,
      ih, List.map_map]
    rfl

/-- The entry-name column of a single archive's flattened map is its own
name column. -/
theorem sizeMapOf_single_names (p : PathToZip) (es : PerArchive) :
    (sizeMapOf [(p, es)]).map (fun q => q.1.2) = es.map Prod.fst := by
  simp only [sizeMapOf, List.flatMap_cons, List.flatMap_nil, List.append_nil,
    List.map_map]
  rfl

/-! ### Percentage arithmetic -/

/-- A zero-guarded ratio of naturals with numerator at most denominator,
scaled to a percentage, lies in `[0, 100]`. -/
theorem ratio_bounds (a b : Nat) (hab : a ≤ b) :
    0 ≤ (if 0 < b then (a : ℚ) / (b : ℚ) * 100 else 0) ∧
    (if 0 < b then (a : ℚ) / (b : ℚ) * 100 else 0) ≤ 100 := by
  constructor
  · by_cases hb : 0 < b
    · rw [if_pos hb]
      positivity
    · rw [if_neg hb]
  · by_cases hb : 0 < b
    · rw [if_pos hb]
      have hb' : (0 : ℚ) < (b : ℚ) := by exact_mod_cast hb
      have h1 : (a : ℚ) / (b : ℚ) ≤ 1 := by
        rw [div_le_one hb']
        exact_mod_cast hab
      nlinarith
    · rw [if_neg hb]
      norm_num

/-- An archive's duplicated bytes never exceed its total bytes. -/
theorem fileDup_le_fileTotal (pz : PerZip) (zip : PathToZip) :
    fileDup pz zip ≤ fileTotal pz zip := by
  unfold fileDup fileTotal
  refine List.sum_le_sum ?_
  intro n _
  by_cases h : 1 < (occ (sizeMapOf pz) n).length
  · rw [if_pos h]
  · rw [if_neg h]
    exact Nat.zero_le _

/-- The savable total never exceeds the byte total. -/
theorem totalSavable_le_totalBytes (sm : SizeMap) :
    totalSavable sm ≤ totalBytes sm := by
  unfold totalSavable totalBytes
  exact List.sum_le_sum (fun n _ => savableOf_le_sum _)

/-! ### Claim theorems -/

/-- C1 (corrected): the per-name contribution to `total_savable` is the sum
of the name's occurrence sizes minus their single largest one (the code sums
the slice `[..len - 1]` of the ascending sort, dropping the largest, not the
smallest as the spec says); a name with exactly one occurrence contributes
0; and `total_bytes` sums all occurrence sizes regardless of occurrence
count. -/
theorem savable_contribution_amended :
    ∀ (sm : SizeMap) (n : PathInsideZip),
      (1 < (occSizes sm n).length →
        savableOf (occSizes sm n) + (occSizes sm n).foldr max 0
          = (occSizes sm n).sum) ∧
      ((occSizes sm n).length = 1 → savableOf (occSizes sm n) = 0) ∧
      totalBytes sm = (sm.map (fun p => p.2)).sum := by
  intro sm n
  refine ⟨fun h => savableOf_add_max _ h, fun h => ?_, totalBytes_eq sm⟩
  unfold savableOf
  rw [if_neg (by omega)]

/-- C1 (counterexample): on the spec's own scenario the entry `"y"` has
occurrence sizes `[20, 5, 20]`; the code's contribution is `5 + 20 = 25`
(all but the largest), not the spec's `20 + 20 = 40` (all but the
smallest), and the resulting `total_savable` is 35, not the spec's 50. -/
theorem savable_policy_counterexample :
    buildIndex sanitizeEx exScenario = .ok exPerZip ∧
    occSizes (sizeMapOf exPerZip) "y" = [20, 5, 20] ∧
    savableOf [20, 5, 20] = 25 ∧
    specSavableOf [20, 5, 20] = 40 ∧
    totalSavable (sizeMapOf exPerZip) = 35 :=
  ⟨rfl, rfl, by decide, by decide, by decide⟩

/-- C1 (witness): the amended statement evaluated on the scenario's entry
`"y"` (three occurrences), on a single-occurrence map, and on the scenario's
byte total. -/
theorem savable_contribution_amended_witness :
    (savableOf (occSizes (sizeMapOf exPerZip) "y")
        + (occSizes (sizeMapOf exPerZip) "y").foldr max 0
      = (occSizes (sizeMapOf exPerZip) "y").sum) ∧
    savableOf (occSizes (sizeMapOf [("Z3", [("y", 20)])]) "y") = 0 ∧
    totalBytes (sizeMapOf exPerZip)
      = ((sizeMapOf exPerZip).map (fun p => p.2)).sum :=
  ⟨(savable_contribution_amended (sizeMapOf exPerZip) "y").1 (by decide),
   (savable_contribution_amended (sizeMapOf [("Z3", [("y", 20)])]) "y").2.1
     (by decide),
   (savable_contribution_amended (sizeMapOf exPerZip) "y").2.2⟩

/-- C4: for every scan result and every size map, `total_savable` never
exceeds `total_bytes`, and both the per-archive percentage and the
corpus-wide reduction percentage lie in `[0, 100]`. -/
theorem savings_and_percentages_bounded :
    ∀ (pz : PerZip) (zip : PathToZip) (sm : SizeMap),
      totalSavable sm ≤ totalBytes sm ∧
      0 ≤ filePercent pz zip ∧ filePercent pz zip ≤ 100 ∧
      0 ≤ percentReduction sm ∧ percentReduction sm ≤ 100 := by
  intro pz zip sm
  refine ⟨totalSavable_le_totalBytes sm, ?_, ?_, ?_, ?_⟩
  · exact (ratio_bounds (fileDup pz zip) (fileTotal pz zip)
      (fileDup_le_fileTotal pz zip)).1
  · exact (ratio_bounds (fileDup pz zip) (fileTotal pz zip)
      (fileDup_le_fileTotal pz zip)).2
  · exact (ratio_bounds (totalSavable sm) (totalBytes sm)
      (totalSavable_le_totalBytes sm)).1
  · exact (ratio_bounds (totalSavable sm) (totalBytes sm)
      (totalSavable_le_totalBytes sm)).2

/-- C7: an empty archive list fails with the no-zips error before any
indexing: the result is the error for every sanitizer, so no archive was
consulted and no statistic computed. -/
theorem empty_input_noZipsFound :
    ∀ (sanitize : String → Option PathInsideZip),
      buildIndex sanitize [] = .error .noZipsFound :=
  fun _ => rfl

/-- C8: the per-archive percentage is 0 when the archive total is 0 and
otherwise satisfies `percent * total = dup * 100` (i.e. it is the real
quotient `dup / total * 100`); likewise the corpus-wide reduction is 0 when
`total_bytes` is 0 and otherwise satisfies
`percent_reduction * total_bytes = total_savable * 100`.  The zero branch
returns the constant 0, so the division only happens under the guard. -/
theorem percent_zero_guard :
    ∀ (pz : PerZip) (zip : PathToZip) (sm : SizeMap),
      (fileTotal pz zip = 0 → filePercent pz zip = 0) ∧
      (0 < fileTotal pz zip →
        filePercent pz zip * (fileTotal pz zip : ℚ)
          = (fileDup pz zip : ℚ) * 100) ∧
      (totalBytes sm = 0 → percentReduction sm = 0) ∧
      (0 < totalBytes sm →
        percentReduction sm * (totalBytes sm : ℚ)
          = (totalSavable sm : ℚ) * 100) := by
  intro pz zip sm
  refine ⟨fun h => ?_, fun h => ?_, fun h => ?_, fun h => ?_⟩
  · unfold filePercent
    rw [if_neg (by omega)]
  · unfold filePercent
    rw [if_pos h]
    have hb : (fileTotal pz zip : ℚ) ≠ 0 := by
      exact_mod_cast Nat.pos_iff_ne_zero.mp h
    field_simp
  · unfold percentReduction
    rw [if_neg (by omega)]
  · unfold percentReduction
    rw [if_pos h]
    have hb : (totalBytes sm : ℚ) ≠ 0 := by
      exact_mod_cast Nat.pos_iff_ne_zero.mp h
    field_simp

/-- C8 (witness): the guard evaluated on an empty scan (zero totals) and on
the scenario's archive `Z1` and its size map (positive totals). -/
theorem percent_zero_guard_witness :
    filePercent [] "A" = 0 ∧
    filePercent exPerZip "Z1" * (fileTotal exPerZip "Z1" : ℚ)
      = (fileDup exPerZip "Z1" : ℚ) * 100 ∧
    percentReduction [] = 0 ∧
    percentReduction (sizeMapOf exPerZip) * (totalBytes (sizeMapOf exPerZip) : ℚ)
      = (totalSavable (sizeMapOf exPerZip) : ℚ) * 100 :=
  ⟨(percent_zero_guard [] "A" []).1 rfl,
   (percent_zero_guard exPerZip "Z1" []).2.1 (by decide),
   (percent_zero_guard [] "A" []).2.2.1 rfl,
   (percent_zero_guard [] "A" (sizeMapOf exPerZip)).2.2.2 (by decide)⟩

/-- C2: for any two archives of a successful run, the pair's duplicated
bytes equal the sum, over the names present in both archives' name sets, of
the minimum of the two size lookups; and a missed size lookup contributes 0
instead of failing. -/
theorem pair_shared_bytes_min_sum (sanitize : String → Option PathInsideZip)
    (zs : List ZipFile) (pz : PerZip) (hok : buildIndex sanitize zs = .ok pz)
    (p1 p2 : PathToZip) :
    pairBytes pz p1 p2
      = ∑ n ∈ (nameSetOf pz p1).toFinset ∩ (nameSetOf pz p2).toFinset,
          min (sizeOrZero (sizeMapOf pz) p1 n) (sizeOrZero (sizeMapOf pz) p2 n) ∧
    ∀ (zip : PathToZip) (n : PathInsideZip),
      (sizeMapOf pz).lookup (zip, n) = none →
      sizeOrZero (sizeMapOf pz) zip n = 0 := by
  constructor
  · have h1 := nameSetOf_nodup sanitize zs pz (buildIndex_ok sanitize zs pz hok) p1
    have hnd : (sharedNames (nameSetOf pz p1) (nameSetOf pz p2)).Nodup :=
      h1.filter _
    have hfs : (sharedNames (nameSetOf pz p1) (nameSetOf pz p2)).toFinset
        = (nameSetOf pz p1).toFinset ∩ (nameSetOf pz p2).toFinset := by
      ext a
      simp [sharedNames]
    unfold pairBytes
    rw [← hfs, List.sum_toFinset _ hnd]
  · intro zip n h
    unfold sizeOrZero
    rw [h]
    rfl

/-- C2 (witness): the shared-byte formula evaluated on the scenario pair
`(Z1, Z2)` and the defensive default on its size map. -/
theorem pair_shared_bytes_min_sum_witness :
    pairBytes exPerZip "Z1" "Z2"
      = ∑ n ∈ (nameSetOf exPerZip "Z1").toFinset ∩ (nameSetOf exPerZip "Z2").toFinset,
          min (sizeOrZero (sizeMapOf exPerZip) "Z1" n)
            (sizeOrZero (sizeMapOf exPerZip) "Z2" n) ∧
    ∀ (zip : PathToZip) (n : PathInsideZip),
      (sizeMapOf exPerZip).lookup (zip, n) = none →
      sizeOrZero (sizeMapOf exPerZip) zip n = 0 :=
  pair_shared_bytes_min_sum sanitizeEx exScenario exPerZip rfl "Z1" "Z2"

/-- C3: an archive whose (all successfully sanitized) entry names collide
fails with the duplicate-entry error naming the archive, and no run on any
archive list containing it can produce an index — so no partial per-archive
data is ever merged. -/
theorem duplicate_entry_rejected (sanitize : String → Option PathInsideZip)
    (z : ZipFile) (hok : ∀ e ∈ z.entries, (sanitize e.name).isSome)
    (n₀ : PathInsideZip)
    (hdup : 2 ≤ (z.entries.filterMap (fun e => sanitize e.name)).count n₀) :
    (∃ n, indexEntries sanitize z.path z.entries []
        = .error (.duplicateEntry n z.path)) ∧
    ∀ (zs : List ZipFile) (pz : PerZip), z ∈ zs →
      buildIndex sanitize zs ≠ .ok pz := by
  have hnotnd :
      ¬ (([] : PerArchive).map Prod.fst
        ++ z.entries.filterMap (fun e => sanitize e.name)).Nodup := by
    intro hnd
    simp only [List.map_nil, List.nil_append] at hnd
    have := List.nodup_iff_count_le_one.mp hnd n₀
    omega
  have hmain := indexEntries_dup sanitize z.path z.entries [] hok (by simp) hnotnd
  refine ⟨hmain, ?_⟩
  rcases hmain with ⟨n, hn⟩
  intro zs pz hz hcontra
  exact buildPerZip_fails sanitize z _ hn zs pz hz
    (buildIndex_ok sanitize zs pz hcontra)

/-- C3 (witness): an archive with two entries normalizing to `"a"` fails
with the duplicate-entry error, and no list containing it scans. -/
theorem duplicate_entry_rejected_witness :
    (∃ n, indexEntries sanitizeEx "A" [⟨"a", 1⟩, ⟨"a", 2⟩] []
        = .error (.duplicateEntry n "A")) ∧
    ∀ (zs : List ZipFile) (pz : PerZip),
      (⟨"A", [⟨"a", 1⟩, ⟨"a", 2⟩]⟩ : ZipFile) ∈ zs →
      buildIndex sanitizeEx zs ≠ .ok pz :=
  duplicate_entry_rejected sanitizeEx ⟨"A", [⟨"a", 1⟩, ⟨"a", 2⟩]⟩
    (by decide) "a" (by decide)

/-- C5: the shared count and shared bytes of an archive pair do not depend
on the orientation of the pair. -/
theorem pair_stats_symmetric (sanitize : String → Option PathInsideZip)
    (zs : List ZipFile) (pz : PerZip) (hok : buildIndex sanitize zs = .ok pz)
    (p1 p2 : PathToZip) :
    sharedCount pz p1 p2 = sharedCount pz p2 p1 ∧
    pairBytes pz p1 p2 = pairBytes pz p2 p1 := by
  have hok' := buildIndex_ok sanitize zs pz hok
  have h1 := nameSetOf_nodup sanitize zs pz hok' p1
  have h2 := nameSetOf_nodup sanitize zs pz hok' p2
  have hperm := sharedNames_perm (nameSetOf pz p1) (nameSetOf pz p2) h1 h2
  constructor
  · exact hperm.length_eq
  · unfold pairBytes
    have hfun : (fun n => min (sizeOrZero (sizeMapOf pz) p1 n)
          (sizeOrZero (sizeMapOf pz) p2 n))
        = (fun n => min (sizeOrZero (sizeMapOf pz) p2 n)
          (sizeOrZero (sizeMapOf pz) p1 n)) := by
      funext n
      exact min_comm _ _
    rw [hfun]
    exact (hperm.map _).sum_eq

/-- C5 (witness): symmetry evaluated on the scenario pair `(Z1, Z2)`. -/
theorem pair_stats_symmetric_witness :
    sharedCount exPerZip "Z1" "Z2" = sharedCount exPerZip "Z2" "Z1" ∧
    pairBytes exPerZip "Z1" "Z2" = pairBytes exPerZip "Z2" "Z1" :=
  pair_stats_symmetric sanitizeEx exScenario exPerZip rfl "Z1" "Z2"

/-- C6 (amended): a raw name that fails sanitization aborts that archive's
indexing with the evil-name error carrying the offending raw name (but not
the archive identity), and no run over any list containing that archive can
succeed. -/
theorem invalid_name_fatal_amended (sanitize : String → Option PathInsideZip)
    (z : ZipFile) (pre post : List RawEntry) (e : RawEntry)
    (hsplit : z.entries = pre ++ e :: post)
    (hpre : ∀ e' ∈ pre, (sanitize e'.name).isSome)
    (hprend : (pre.filterMap (fun e' => sanitize e'.name)).Nodup)
    (hbad : sanitize e.name = none) :
    indexEntries sanitize z.path z.entries [] = .error (.evilName e.name) ∧
    ∀ (zs : List ZipFile) (pz : PerZip), z ∈ zs →
      buildIndex sanitize zs ≠ .ok pz := by
  have hmain : indexEntries sanitize z.path z.entries []
      = .error (.evilName e.name) := by
    rw [hsplit, indexEntries_append]
    rcases indexEntries_ok_exists sanitize z.path pre [] hpre
      (by simpa using hprend) with ⟨out, hout⟩
    rw [hout]
    simp [indexEntries, hbad]
  refine ⟨hmain, fun zs pz hz hcontra => ?_⟩
  exact buildPerZip_fails sanitize z _ hmain zs pz hz
    (buildIndex_ok sanitize zs pz hcontra)

/-- C6 (counterexample): two runs over distinct archives that contain the
same evil raw name fail with the *same* error value, so the surfaced error
cannot identify the archive — it carries only the raw name, contradicting
the claim that both the raw name and the archive identity are surfaced. -/
theorem invalid_name_error_lacks_archive :
    buildIndex sanitizeEx [⟨"A", [⟨"../evil", 5⟩]⟩]
      = .error (.evilName "../evil") ∧
    buildIndex sanitizeEx [⟨"B", [⟨"../evil", 5⟩]⟩]
      = .error (.evilName "../evil") ∧
    ("A" : PathToZip) ≠ "B" :=
  ⟨rfl, rfl, by decide⟩

/-- C6 (witness): the amended statement evaluated on an archive whose second
entry has an unsanitizable name. -/
theorem invalid_name_fatal_amended_witness :
    indexEntries sanitizeEx "A" [⟨"ok", 1⟩, ⟨"../evil", 5⟩] []
      = .error (.evilName "../evil") ∧
    ∀ (zs : List ZipFile) (pz : PerZip),
      (⟨"A", [⟨"ok", 1⟩, ⟨"../evil", 5⟩]⟩ : ZipFile) ∈ zs →
      buildIndex sanitizeEx zs ≠ .ok pz :=
  invalid_name_fatal_amended sanitizeEx ⟨"A", [⟨"ok", 1⟩, ⟨"../evil", 5⟩]⟩
    [⟨"ok", 1⟩] [] ⟨"../evil", 5⟩ rfl (by decide) (by decide) rfl

/-- C9: a run over exactly one archive reports no pairs, gives that archive
zero duplicated bytes and a zero percentage, and yields zero savable bytes,
since every entry name then occurs exactly once. -/
theorem single_archive_trivial_stats (sanitize : String → Option PathInsideZip)
    (z : ZipFile) (pz : PerZip) (hok : buildIndex sanitize [z] = .ok pz) :
    reportedPairs pz = [] ∧ fileDup pz z.path = 0 ∧
    filePercent pz z.path = 0 ∧ totalSavable (sizeMapOf pz) = 0 := by
  have hok' := buildIndex_ok sanitize [z] pz hok
  simp only [buildPerZip] at hok'
  cases h1 : indexEntries sanitize z.path z.entries [] with
  | error err => rw [h1] at hok'; cases hok'
  | ok es =>
    simp only [h1] at hok'
    cases hok'
    have hesnd : (es.map Prod.fst).Nodup :=
      indexEntries_ok_nodup sanitize z.path z.entries [] es h1 (by simp)
    have hnames : ((sizeMapOf [(z.path, es)]).map (fun q => q.1.2)).Nodup := by
      rw [sizeMapOf_single_names]
      exact hesnd
    have hocc : ∀ n, ¬ 1 < (occ (sizeMapOf [(z.path, es)]) n).length := by
      intro n hlt
      have := occ_length_le_one (sizeMapOf [(z.path, es)]) hnames n
      omega
    have hdup0 : fileDup [(z.path, es)] z.path = 0 := by
      unfold fileDup
      refine List.sum_eq_zero ?_
      intro x hx
      rcases List.mem_map.mp hx with ⟨n, _, hn⟩
      rw [← hn, if_neg (hocc n)]
    refine ⟨?_, hdup0, ?_, ?_⟩
    · simp [reportedPairs, allPairs]
    · simp [filePercent, hdup0]
    · unfold totalSavable
      refine List.sum_eq_zero ?_
      intro x hx
      rcases List.mem_map.mp hx with ⟨n, _, hn⟩
      have hlen : ¬ 1 < (occSizes (sizeMapOf [(z.path, es)]) n).length := by
        unfold occSizes
        rw [List.length_map]
        exact hocc n
      rw [← hn]
      unfold savableOf
      rw [if_neg hlen]

/-- C9 (witness): the single-archive run over `Z3`. -/
theorem single_archive_trivial_stats_witness :
    reportedPairs [("Z3", [("y", 20)])] = [] ∧
    fileDup [("Z3", [("y", 20)])] "Z3" = 0 ∧
    filePercent [("Z3", [("y", 20)])] "Z3" = 0 ∧
    totalSavable (sizeMapOf [("Z3", [("y", 20)])]) = 0 :=
  single_archive_trivial_stats sanitizeEx exZ3 [("Z3", [("y", 20)])] rfl

/-- C10: with distinct zip paths, the corpus-wide `total_bytes` computed
from the entry-name occurrence map equals the sum of the per-archive byte
totals: every recorded `(archive, entry)` occurrence is counted exactly
once by both accumulations. -/
theorem total_bytes_consistency (sanitize : String → Option PathInsideZip)
    (zs : List ZipFile) (pz : PerZip) (hok : buildIndex sanitize zs = .ok pz)
    (hnd : (zs.map ZipFile.path).Nodup) :
    totalBytes (sizeMapOf pz) = (pz.map (fun b => fileTotal pz b.1)).sum := by
  have hok' := buildIndex_ok sanitize zs pz hok
  have hpaths := buildPerZip_paths sanitize zs pz hok'
  have hndp : (pz.map Prod.fst).Nodup := by
    rw [hpaths]
    exact hnd
  rw [totalBytes_eq, ← sum_blocks_eq]
  refine congrArg List.sum (List.map_congr_left ?_)
  intro b hb
  exact (fileTotal_eq_block sanitize zs pz hok' hndp b.1 b.2
    (by simpa using hb)).symm

/-- C10 (witness): the two accumulations agree on the scenario. -/
theorem total_bytes_consistency_witness :
    totalBytes (sizeMapOf exPerZip)
      = (exPerZip.map (fun b => fileTotal exPerZip b.1)).sum :=
  total_bytes_consistency sanitizeEx exScenario exPerZip rfl (by decide)
